import Mathlib

/-!
Verification of `set.go` (package `set`).

The Go type `Set[T comparable] map[T]struct{}` is a hash map whose values carry
no information: its state is exactly its finite collection of keys.  The
built-in map primitives used by `set.go` are embedded as follows.

* `make(map[T]struct{})`      is the empty key collection `∅`;
* `set[s] = struct{}{}`       is `insert s set`;
* `delete(set, s)`            is `set.erase s`;
* `len(set)`                  is `set.card`;
* `_, ok := set[s]`           is `decide (s ∈ set)`;
* `for s := range set { .. }` visits every key exactly once in an order the
  language leaves unspecified.  Each `range` loop therefore receives its own
  `Traversal`: an arbitrary duplicate-free enumeration of the keys.

Go slices are lists, and methods that mutate their receiver return the new
state of the receiver.  A nil map reads like an empty one, so for the operations
that only read their operands both are the empty key collection.  The methods
that write to their receiver (`Add`, `Remove`, `AddAll`, `RemoveAll`) take a
`MapValue`, which tells the nil map from an allocated one: an assignment to an
entry of the nil map is a run-time panic, while `delete` on it does nothing.

The element type `T` stands for the key types whose `==` is an equivalence
relation that the map uses to identify keys (strings, integers, booleans,
pointers, structs and arrays of these): `==` is then equality of `T`.  Keys on
which `==` is not reflexive (a floating-point NaN) or not defined (an interface
holding a value that cannot be compared) are outside this model.
-/

namespace GoSet

variable {T : Type} [DecidableEq T]

/-- The source type `type Set[T comparable] map[T]struct{}`. -/
abbrev Set (T : Type) := Finset T

/-- One possible iteration order of `for s := range set`: every key of the map
is visited exactly once. -/
structure Traversal {T : Type} (set : Set T) where
  order : List T
  nodup : order.Nodup
  complete : ∀ x, x ∈ order ↔ x ∈ set

/-- The built-in `len(set)`. -/
def len (set : Set T) : Nat := set.card

/-- `func New[T comparable]() Set[T]`. -/
def New : Set T := ∅

/-- `func NewFromSlice[T comparable](slice []T) Set[T]`: the loop
`for _, s := range slice { set[s] = struct{}{} }` starting from `New()`. -/
def NewFromSlice (slice : List T) : Set T :=
  slice.foldl (fun set s => insert s set) New

/-- `func (set Set[T]) ToSlice() []T`: the loop
`for s := range set { slice = append(slice, s) }` starting from an empty slice. -/
def ToSlice (set : Set T) (tr : Traversal set) : List T :=
  tr.order.foldl (fun slice s => slice ++ [s]) []

/-- `func (set Set[T]) Contains(s T) bool`. -/
def Contains (set : Set T) (s : T) : Bool :=
  decide (s ∈ set)

/-- The loop of `Equals`:
`for s := range set { if _, ok := other[s]; !ok { return false } }; return true`. -/
def Equals.loop (other : Set T) : List T → Bool
  | [] => true
  | s :: rest => if ¬ (s ∈ other) then false else Equals.loop other rest

/-- `func (set Set[T]) Equals(other Set[T]) bool`. -/
def Equals (set other : Set T) (tr : Traversal set) : Bool :=
  if len set ≠ len other then false
  else Equals.loop other tr.order

/-- The loop of `IsSubsetOf`:
`for item := range set { if !other.Contains(item) { return false } }; return true`. -/
def IsSubsetOf.loop (other : Set T) : List T → Bool
  | [] => true
  | item :: rest => if !(Contains other item) then false else IsSubsetOf.loop other rest

/-- `func (set Set[T]) IsSubsetOf(other Set[T]) bool`. -/
def IsSubsetOf (set other : Set T) (tr : Traversal set) : Bool :=
  if len set > len other then false
  else IsSubsetOf.loop other tr.order

/-- `func (set Set[T]) IsProperSubsetOf(other Set[T]) bool`. -/
def IsProperSubsetOf (set other : Set T) (tr : Traversal set) : Bool :=
  decide (len set < len other) && IsSubsetOf set other tr

/-- `func (set Set[T]) Union(other Set[T]) Set[T]`: two loops inserting into a
fresh map, the first over `set`, the second over `other`. -/
def Union (set other : Set T) (tr : Traversal set) (tro : Traversal other) : Set T :=
  let result : Set T := ∅
  let result := tr.order.foldl (fun result s => insert s result) result
  tro.order.foldl (fun result s => insert s result) result

/-- `func (set Set[T]) Intersection(other Set[T]) Set[T]`. -/
def Intersection (set other : Set T) (tr : Traversal set) : Set T :=
  tr.order.foldl (fun result s => if s ∈ other then insert s result else result) ∅

/-- `func (set Set[T]) Difference(other Set[T]) Set[T]`. -/
def Difference (set other : Set T) (tr : Traversal set) : Set T :=
  tr.order.foldl (fun result s => if ¬ (s ∈ other) then insert s result else result) ∅

/-- The traversal of a map that visits its keys in the order of the listing `l`. -/
def Traversal.ofOrder {set : Set T} (l : List T) (h : l.Nodup) (hkeys : l.toFinset = set) :
    Traversal set :=
  ⟨l, h, fun x => by rw [← hkeys]; exact List.mem_toFinset.symm⟩

/-! ## Receivers of the mutating methods -/

/-- A value of the Go type `Set[T]` as the receiver of a mutating method: either
the nil map (the zero value of the type, as in `var set Set[T]`) or a map that
was allocated by `make` or a composite literal and holds `keys`. -/
inductive MapValue (T : Type) where
  | nil : MapValue T
  | made (keys : Set T) : MapValue T

/-- Two map values are the same when both are nil or both are allocated with the
same keys. -/
instance MapValue.decEq : DecidableEq (MapValue T)
  | .nil, .nil => isTrue rfl
  | .nil, .made _ => isFalse (fun h => MapValue.noConfusion h)
  | .made _, .nil => isFalse (fun h => MapValue.noConfusion h)
  | .made a, .made b => decidable_of_iff (a = b) ⟨congrArg MapValue.made, MapValue.made.inj⟩

/-- The keys of a map value as every read sees them: the nil map reads like an
empty map. -/
def MapValue.keys : MapValue T → Set T
  | .nil => ∅
  | .made keys => keys

/-- The statement `set[s] = struct{}{}`.  On the nil map it is the run-time panic
"assignment to entry in nil map", rendered as `none`. -/
def MapValue.assign : MapValue T → T → Option (MapValue T)
  | .nil, _ => none
  | .made keys, s => some (.made (insert s keys))

/-- The built-in `delete(set, s)`: a no-op when the map is nil or has no such
key. -/
def MapValue.delete : MapValue T → T → MapValue T
  | .nil, _ => .nil
  | .made keys, s => .made (keys.erase s)

/-- `func (set Set[T]) Add(s T)`. -/
def Add (set : MapValue T) (s : T) : Option (MapValue T) :=
  set.assign s

/-- `func (set Set[T]) Remove(s T)`. -/
def Remove (set : MapValue T) (s : T) : MapValue T :=
  set.delete s

/-- `func (set Set[T]) AddAll(slice []T)`: the loop
`for _, s := range slice { set[s] = struct{}{} }` on the receiver. -/
def AddAll (set : MapValue T) (slice : List T) : Option (MapValue T) :=
  slice.foldlM (fun set s => set.assign s) set

/-- `func (set Set[T]) RemoveAll(slice []T)`: the loop
`for _, s := range slice { delete(set, s) }` on the receiver. -/
def RemoveAll (set : MapValue T) (slice : List T) : MapValue T :=
  slice.foldl (fun set s => set.delete s) set

/-- The spec's reading of `addAll`: "calling `add` for each" element of `p`, one
call after another, each call on the state the previous one left. -/
def AddEach : MapValue T → List T → Option (MapValue T)
  | set, [] => some set
  | set, x :: rest => (Add set x).bind (fun set => AddEach set rest)

/-! ## Maps with values -/

/-- A Go map `map[T]V` as read by `NewFromMapKeys`: finitely many entries, at
most one for each key (a nil map has none). -/
structure GoMap (T V : Type) where
  entries : List (T × V)
  nodupKeys : (entries.map Prod.fst).Nodup

/-- The keys of a map `map[T]V`. -/
def GoMap.keys {V : Type} (m : GoMap T V) : Set T :=
  (m.entries.map Prod.fst).toFinset

/-- The built-in `len(m)` of a map `map[T]V`. -/
def GoMap.len {T V : Type} (m : GoMap T V) : Nat :=
  m.entries.length

/-- `func NewFromMapKeys[T comparable, V any](m map[T]V) Set[T]`: the loop
`for k := range m { set[k] = struct{}{} }` starting from `New()`. -/
def NewFromMapKeys {V : Type} (m : GoMap T V) (tr : Traversal m.keys) : Set T :=
  tr.order.foldl (fun set k => insert k set) New

/-! ## Loop lemmas -/

/-- An insertion loop over a slice adds exactly the elements of the slice. -/
theorem foldl_insert_eq (l : List T) (acc : Set T) :
    l.foldl (fun set s => insert s set) acc = acc ∪ l.toFinset := by
  induction l generalizing acc with
  | nil => simp
  | cons a tl ih =>
    rw [List.foldl_cons, ih]
    ext x
    simp only [Finset.mem_union, Finset.mem_insert, List.toFinset_cons]
    tauto

/-- A guarded insertion loop adds the visited elements that pass the guard. -/
theorem foldl_guarded_insert_mem (p : T → Prop) [DecidablePred p] (l : List T)
    (acc : Set T) (x : T) :
    x ∈ l.foldl (fun result s => if p s then insert s result else result) acc ↔
      x ∈ acc ∨ (x ∈ l ∧ p x) := by
  induction l generalizing acc with
  | nil => simp
  | cons a tl ih =>
    rw [List.foldl_cons, ih]
    by_cases hp : p a
    · simp only [hp, if_true, Finset.mem_insert, List.mem_cons]
      constructor
      · rintro ((rfl | h) | h)
        · exact Or.inr ⟨Or.inl rfl, hp⟩
        · exact Or.inl h
        · exact Or.inr ⟨Or.inr h.1, h.2⟩
      · rintro (h | ⟨rfl | h, hx⟩)
        · exact Or.inl (Or.inr h)
        · exact Or.inl (Or.inl rfl)
        · exact Or.inr ⟨h, hx⟩
    · simp only [hp, if_false, List.mem_cons]
      constructor
      · rintro (h | h)
        · exact Or.inl h
        · exact Or.inr ⟨Or.inr h.1, h.2⟩
      · rintro (h | ⟨rfl | h, hx⟩)
        · exact Or.inl h
        · exact absurd hx hp
        · exact Or.inr ⟨h, hx⟩

omit [DecidableEq T] in
/-- An append loop copies the visited elements behind the accumulator. -/
theorem foldl_append_eq (l acc : List T) :
    l.foldl (fun slice s => slice ++ [s]) acc = acc ++ l := by
  induction l generalizing acc with
  | nil => simp
  | cons a tl ih => rw [List.foldl_cons, ih]; simp

/-- The loop of `Equals` answers true exactly when no visited key is missing. -/
theorem equals_loop_iff (other : Set T) (l : List T) :
    Equals.loop other l = true ↔ ∀ x ∈ l, x ∈ other := by
  induction l with
  | nil => simp [Equals.loop]
  | cons a tl ih =>
    by_cases h : a ∈ other
    · simp [Equals.loop, h, ih]
    · simp [Equals.loop, h]

/-- The loop of `IsSubsetOf` answers true exactly when no visited key is missing. -/
theorem isSubsetOf_loop_iff (other : Set T) (l : List T) :
    IsSubsetOf.loop other l = true ↔ ∀ x ∈ l, x ∈ other := by
  induction l with
  | nil => simp [IsSubsetOf.loop]
  | cons a tl ih =>
    by_cases h : a ∈ other
    · simp [IsSubsetOf.loop, Contains, h, ih]
    · simp [IsSubsetOf.loop, Contains, h]

omit [DecidableEq T] in
/-- Every map can be traversed: quantifying over traversals is never vacuous. -/
theorem Traversal.nonempty (set : Set T) : Nonempty (Traversal set) :=
  ⟨⟨set.toList, set.nodup_toList, fun _ => Finset.mem_toList⟩⟩

/-- A traversal lists exactly the keys of its map. -/
theorem Traversal.toFinset_order {set : Set T} (tr : Traversal set) :
    tr.order.toFinset = set := by
  ext x
  rw [List.mem_toFinset]
  exact tr.complete x

/-- A traversal has as many steps as the map has keys. -/
theorem Traversal.length_order {set : Set T} (tr : Traversal set) :
    tr.order.length = len set := by
  have h := List.toFinset_card_of_nodup tr.nodup
  rw [tr.toFinset_order] at h
  exact h.symm

/-- Membership test as a proposition. -/
theorem contains_iff (set : Set T) (s : T) : Contains set s = true ↔ s ∈ set := by
  simp [Contains]

/-- Result of `IsSubsetOf` in terms of the key collections. -/
theorem isSubsetOf_eq_true_iff (A B : Set T) (tr : Traversal A) :
    IsSubsetOf A B tr = true ↔ A ⊆ B := by
  unfold IsSubsetOf
  by_cases hlen : len A > len B
  · rw [if_pos hlen]
    constructor
    · intro h; cases h
    · intro h
      have := Finset.card_le_card h
      unfold len at hlen
      omega
  · rw [if_neg hlen, isSubsetOf_loop_iff]
    constructor
    · intro h x hx
      exact h x ((tr.complete x).2 hx)
    · intro h x hx
      exact h ((tr.complete x).1 hx)

/-- Result of `Equals` in terms of the key collections. -/
theorem equals_eq_true_iff (A B : Set T) (tr : Traversal A) :
    Equals A B tr = true ↔ A = B := by
  unfold Equals
  by_cases hlen : len A ≠ len B
  · rw [if_pos hlen]
    constructor
    · intro h; cases h
    · intro h
      exact absurd (by rw [h]) hlen
  · rw [if_neg hlen, equals_loop_iff]
    have hcard : A.card = B.card := by
      unfold len at hlen
      exact not_not.mp hlen
    constructor
    · intro h
      apply Finset.eq_of_subset_of_card_le
      · intro x hx
        exact h x ((tr.complete x).2 hx)
      · exact hcard.ge
    · intro h x hx
      rw [← h]
      exact (tr.complete x).1 hx

/-- Result of `Union` as a key collection. -/
theorem union_eq (A B : Set T) (trA : Traversal A) (trB : Traversal B) :
    Union A B trA trB = A ∪ B := by
  unfold Union
  simp only [foldl_insert_eq, trA.toFinset_order, trB.toFinset_order, Finset.empty_union]

/-- Result of `Intersection` as a key collection. -/
theorem intersection_eq (A B : Set T) (tr : Traversal A) :
    Intersection A B tr = A ∩ B := by
  ext x
  unfold Intersection
  rw [foldl_guarded_insert_mem (fun s => s ∈ B), tr.complete]
  simp

/-- Result of `Difference` as a key collection. -/
theorem difference_eq (A B : Set T) (tr : Traversal A) :
    Difference A B tr = A \ B := by
  ext x
  unfold Difference
  rw [foldl_guarded_insert_mem (fun s => ¬ (s ∈ B)), tr.complete]
  simp

/-- Result of `NewFromSlice` as a key collection. -/
theorem newFromSlice_eq (slice : List T) : NewFromSlice slice = slice.toFinset := by
  unfold NewFromSlice New
  rw [foldl_insert_eq]
  simp

omit [DecidableEq T] in
/-- Result of `ToSlice`: the keys in the order of the traversal. -/
theorem toSlice_eq (A : Set T) (tr : Traversal A) : ToSlice A tr = tr.order := by
  unfold ToSlice
  rw [foldl_append_eq]
  simp

/-! ## Subset, equality and proper subset -/

/-- C1: `IsSubsetOf(A, B)` returns true if and only if every element of `A` is
contained in `B`, whatever the traversal order; and when every element of `A` is
in `B`, the guard `len(A) > len(B)` of the early `return false` does not hold. -/
theorem isSubsetOf_iff_forall_contains (A B : Set T) (tr : Traversal A) :
    (IsSubsetOf A B tr = true ↔ ∀ x, Contains A x = true → Contains B x = true) ∧
      ((∀ x, Contains A x = true → Contains B x = true) → ¬ (len A > len B)) := by
  have hsub : (∀ x, Contains A x = true → Contains B x = true) ↔ A ⊆ B := by
    simp only [contains_iff]
    exact Iff.rfl
  refine ⟨?_, ?_⟩
  · rw [hsub]
    exact isSubsetOf_eq_true_iff A B tr
  · intro h
    have hle := Finset.card_le_card (hsub.1 h)
    unfold len
    omega

/-- C2: `Equals(A, B)` is true if and only if `IsSubsetOf(A, B)` and
`IsSubsetOf(B, A)` are both true, whatever the traversal order of each call. -/
theorem equals_iff_isSubsetOf_both (A B : Set T) (trE trA : Traversal A)
    (trB : Traversal B) :
    Equals A B trE = true ↔ (IsSubsetOf A B trA = true ∧ IsSubsetOf B A trB = true) := by
  rw [equals_eq_true_iff, isSubsetOf_eq_true_iff, isSubsetOf_eq_true_iff]
  constructor
  · intro h
    subst h
    exact ⟨Finset.Subset.refl _, Finset.Subset.refl _⟩
  · intro h
    exact Finset.Subset.antisymm h.1 h.2

/-- C3: `IsProperSubsetOf(A, B)` is true if and only if `IsSubsetOf(A, B)` is
true and `Equals(A, B)` is false; two sets for which `Equals` is true are not
proper subsets of each other, and the empty set is not a proper subset of the
empty set. -/
theorem isProperSubsetOf_iff_isSubsetOf_not_equals (A B : Set T)
    (trP trS trE : Traversal A) (trB : Traversal B) (trN : Traversal (New : Set T)) :
    (IsProperSubsetOf A B trP = true ↔
        (IsSubsetOf A B trS = true ∧ Equals A B trE = false)) ∧
      (Equals A B trE = true →
        IsProperSubsetOf A B trP = false ∧ IsProperSubsetOf B A trB = false) ∧
      IsProperSubsetOf (New : Set T) New trN = false := by
  have hprop : ∀ (X Y : Set T) (t : Traversal X),
      IsProperSubsetOf X Y t = true ↔ (len X < len Y ∧ X ⊆ Y) := by
    intro X Y t
    unfold IsProperSubsetOf
    rw [Bool.and_eq_true, decide_eq_true_iff, isSubsetOf_eq_true_iff]
  have hself : ∀ (X : Set T) (t : Traversal X), IsProperSubsetOf X X t = false := by
    intro X t
    rw [← Bool.not_eq_true, hprop]
    intro h
    exact absurd h.1 (lt_irrefl _)
  refine ⟨?_, ?_, hself _ trN⟩
  · rw [hprop, isSubsetOf_eq_true_iff, ← Bool.not_eq_true, equals_eq_true_iff]
    constructor
    · rintro ⟨hlt, hsub⟩
      refine ⟨hsub, ?_⟩
      intro heq
      rw [heq] at hlt
      exact absurd hlt (lt_irrefl _)
    · rintro ⟨hsub, hne⟩
      refine ⟨?_, hsub⟩
      have hle := Finset.card_le_card hsub
      have hcne : A.card ≠ B.card := by
        intro hc
        exact hne (Finset.eq_of_subset_of_card_le hsub hc.ge)
      unfold len
      omega
  · intro heq
    rw [equals_eq_true_iff] at heq
    subst heq
    exact ⟨hself _ trP, hself _ trB⟩

/-! ## Union, intersection and difference -/

/-- C4: `Union(A, B)` contains `x` if and only if `A` contains `x` or `B`
contains `x`, whatever the traversal orders. -/
theorem contains_union_iff (A B : Set T) (trA : Traversal A) (trB : Traversal B) (x : T) :
    Contains (Union A B trA trB) x = true ↔
      (Contains A x = true ∨ Contains B x = true) := by
  rw [union_eq]
  simp only [contains_iff, Finset.mem_union]

/-- C5: `Intersection(A, B)` contains `x` if and only if `A` contains `x` and
`B` contains `x`, whatever the traversal order. -/
theorem contains_intersection_iff (A B : Set T) (tr : Traversal A) (x : T) :
    Contains (Intersection A B tr) x = true ↔
      (Contains A x = true ∧ Contains B x = true) := by
  rw [intersection_eq]
  simp only [contains_iff, Finset.mem_inter]

/-- C6: `Difference(A, B)` contains `x` if and only if `A` contains `x` and `B`
does not contain `x`, whatever the traversal order. -/
theorem contains_difference_iff (A B : Set T) (tr : Traversal A) (x : T) :
    Contains (Difference A B tr) x = true ↔
      (Contains A x = true ∧ Contains B x = false) := by
  rw [difference_eq, ← Bool.not_eq_true]
  simp only [contains_iff, Finset.mem_sdiff]

/-- C7: inclusion-exclusion: the size of `Union(A, B)` equals
`len(A) + len(B) - len(Intersection(A, B))`; the subtraction never goes below
zero, as the sum form shows. -/
theorem len_union_inclusion_exclusion (A B : Set T) (trU trI : Traversal A)
    (trB : Traversal B) :
    len (Union A B trU trB) = len A + len B - len (Intersection A B trI) ∧
      len (Union A B trU trB) + len (Intersection A B trI) = len A + len B := by
  rw [union_eq, intersection_eq]
  have h := Finset.card_union_add_card_inter A B
  unfold len
  omega

/-! ## Construction from a slice and export to a slice -/

/-- C8: the size of `NewFromSlice(s)` is at most the length of `s`, and equals
it if and only if `s` has no duplicate elements. -/
theorem len_newFromSlice_le (s : List T) :
    len (NewFromSlice s) ≤ s.length ∧ (len (NewFromSlice s) = s.length ↔ s.Nodup) := by
  rw [newFromSlice_eq]
  unfold len
  refine ⟨List.toFinset_card_le s, ?_⟩
  rw [List.card_toFinset]
  constructor
  · intro h
    exact List.dedup_eq_self.1 ((List.dedup_sublist s).eq_of_length h)
  · intro h
    rw [List.dedup_eq_self.2 h]

/-- C9: `Contains(NewFromSlice(s), x)` is true if and only if `x` occurs in `s`;
duplicates collapse, so the size of the set is the number of distinct elements
of `s`. -/
theorem contains_newFromSlice_iff (s : List T) (x : T) :
    (Contains (NewFromSlice s) x = true ↔ x ∈ s) ∧
      len (NewFromSlice s) = s.dedup.length := by
  rw [newFromSlice_eq]
  refine ⟨?_, List.card_toFinset s⟩
  rw [contains_iff, List.mem_toFinset]

/-- C10: `ToSlice(A)` lists every element of `A` exactly once and nothing else,
whatever the traversal order of the map: it has no duplicates, an element occurs
in it if and only if `A` contains it (and then once), and its length is
`len(A)`. -/
theorem toSlice_lists_each_once (A : Set T) (tr : Traversal A) :
    (ToSlice A tr).Nodup ∧
      (∀ x, x ∈ ToSlice A tr ↔ Contains A x = true) ∧
      (∀ x, (ToSlice A tr).count x = if Contains A x = true then 1 else 0) ∧
      (ToSlice A tr).length = len A := by
  rw [toSlice_eq]
  refine ⟨tr.nodup, ?_, ?_, tr.length_order⟩
  · intro x
    rw [contains_iff]
    exact tr.complete x
  · intro x
    rw [List.count_eq_of_nodup tr.nodup]
    simp only [contains_iff, tr.complete]

/-! ## Lemmas on the mutating methods -/

/-- `AddAll` on an allocated map succeeds and adds the elements of the slice. -/
theorem addAll_made (K : Set T) (slice : List T) :
    AddAll (.made K) slice = some (.made (K ∪ slice.toFinset)) := by
  unfold AddAll
  induction slice generalizing K with
  | nil => simp
  | cons a tl ih =>
    rw [List.foldlM_cons]
    have hstep : (MapValue.made K).assign a = some (.made (insert a K)) := rfl
    rw [hstep, Option.bind_eq_bind, Option.some_bind, ih]
    congr 2
    ext x
    simp only [Finset.mem_union, Finset.mem_insert, List.toFinset_cons]
    tauto

/-- `AddAll` on the nil map panics at the first element of the slice. -/
theorem addAll_nil_cons (a : T) (tl : List T) :
    AddAll (MapValue.nil : MapValue T) (a :: tl) = none := by
  unfold AddAll
  rw [List.foldlM_cons]
  rfl

/-- One `Add` per element on an allocated map succeeds and adds the elements. -/
theorem addEach_made (K : Set T) (p : List T) :
    AddEach (.made K) p = some (.made (K ∪ p.toFinset)) := by
  induction p generalizing K with
  | nil => simp [AddEach]
  | cons a tl ih =>
    simp only [AddEach, Add, MapValue.assign, Option.some_bind]
    rw [ih]
    congr 2
    ext x
    simp only [Finset.mem_union, Finset.mem_insert, List.toFinset_cons]
    tauto

/-- One `Add` per element on the nil map panics at the first call. -/
theorem addEach_nil_cons (a : T) (tl : List T) :
    AddEach (MapValue.nil : MapValue T) (a :: tl) = none := by
  simp [AddEach, Add, MapValue.assign]

/-- The keys left by `Remove`. -/
theorem remove_keys (A : MapValue T) (x : T) : (Remove A x).keys = A.keys.erase x := by
  cases A with
  | nil => simp [Remove, MapValue.delete, MapValue.keys]
  | made K => simp [Remove, MapValue.delete, MapValue.keys]

/-- `Remove` of a key that is not there gives back the same map value. -/
theorem remove_of_not_mem (A : MapValue T) (x : T) (h : x ∉ A.keys) : Remove A x = A := by
  cases A with
  | nil => rfl
  | made K =>
    simp only [MapValue.keys] at h
    simp only [Remove, MapValue.delete, Finset.erase_eq_of_not_mem h]

/-- The keys left by `RemoveAll`. -/
theorem mem_removeAll_keys (A : MapValue T) (slice : List T) (x : T) :
    x ∈ (RemoveAll A slice).keys ↔ (x ∈ A.keys ∧ x ∉ slice) := by
  unfold RemoveAll
  induction slice generalizing A with
  | nil => simp
  | cons a tl ih =>
    rw [List.foldl_cons, ih]
    have h := remove_keys A a
    unfold Remove at h
    rw [h, Finset.mem_erase, List.mem_cons]
    tauto

/-- Result of `NewFromMapKeys` as a key collection. -/
theorem newFromMapKeys_eq {V : Type} (m : GoMap T V) (tr : Traversal m.keys) :
    NewFromMapKeys m tr = m.keys := by
  unfold NewFromMapKeys New
  rw [foldl_insert_eq, tr.toFinset_order]
  simp

/-! ## Add and Remove -/

/-- C11, amended: for every non-nil set `A` (an allocated map) and element `x`,
`Add(x)` returns, and afterwards the set contains `y` if and only if `y = x` or
`A` contained `y` before the call; when `A` already contained `x` the set is
unchanged (same map value, hence same members and same size). -/
theorem add_made_contains_iff (A : Set T) (x : T) :
    ∃ A', Add (.made A) x = some A' ∧
      (∀ y, Contains A'.keys y = true ↔ (y = x ∨ Contains A y = true)) ∧
      (Contains A x = true → A' = .made A ∧ len A'.keys = len A) := by
  refine ⟨.made (insert x A), rfl, ?_, ?_⟩
  · intro y
    simp only [MapValue.keys, contains_iff, Finset.mem_insert]
  · intro h
    rw [contains_iff] at h
    simp only [MapValue.keys, Finset.insert_eq_of_mem h, and_self]

/-- C11, as stated, fails on the nil set: `Add("a")` on the zero value of
`Set[string]` panics, so there is no set after the call that contains `"a"`. -/
theorem add_nil_no_result :
    ¬ ∃ A', Add (MapValue.nil : MapValue String) "a" = some A' ∧
      ∀ y, Contains A'.keys y = true ↔
        (y = "a" ∨ Contains (MapValue.nil : MapValue String).keys y = true) := by
  rintro ⟨A', h, -⟩
  cases h

/-- C12: calling `Add(x)` twice has the same outcome as calling it once: on a
non-nil set both leave the same set, and on the nil set both panic at the first
call. -/
theorem add_twice_eq_add_once (A : MapValue T) (x : T) :
    (Add A x).bind (fun A' => Add A' x) = Add A x ∧
      (A ≠ .nil → ∃ A', Add A x = some A' ∧ Add A' x = some A') := by
  cases A with
  | nil => exact ⟨rfl, fun h => absurd rfl h⟩
  | made K =>
    have h2 : Add (.made (insert x K)) x = some (.made (insert x K)) := by
      simp only [Add, MapValue.assign, Finset.insert_idem]
    refine ⟨?_, fun _ => ⟨.made (insert x K), rfl, h2⟩⟩
    simp only [Add, MapValue.assign, Option.some_bind, Finset.insert_idem]

/-- C13: after `Remove(x)` the set contains `y` if and only if `y` is different
from `x` and `A` contained `y` before the call (for every set, nil included). -/
theorem contains_remove_iff (A : MapValue T) (x y : T) :
    Contains (Remove A x).keys y = true ↔ (y ≠ x ∧ Contains A.keys y = true) := by
  rw [remove_keys]
  simp only [contains_iff, Finset.mem_erase]

/-- C14: when `A` does not contain `x`, `Remove(x)` returns (it has no failing
path) and leaves `A` unchanged: the same map value, the same members, the same
size. -/
theorem remove_absent_unchanged (A : MapValue T) (x : T)
    (h : Contains A.keys x = false) :
    Remove A x = A ∧ (∀ y, Contains (Remove A x).keys y = Contains A.keys y) ∧
      len (Remove A x).keys = len A.keys := by
  have hx : x ∉ A.keys := by
    intro hmem
    rw [(contains_iff A.keys x).2 hmem] at h
    cases h
  rw [remove_of_not_mem A x hx]
  exact ⟨rfl, fun _ => rfl, rfl⟩

/-- Witness of C14 on `{a, b, c}` and the absent element `d`. -/
theorem remove_absent_unchanged_witness :
    Contains (MapValue.made ["a", "b", "c"].toFinset).keys "d" = false ∧
      Remove (MapValue.made ["a", "b", "c"].toFinset) "d"
        = MapValue.made ["a", "b", "c"].toFinset :=
  ⟨by decide, (remove_absent_unchanged _ "d" (by decide)).1⟩

/-! ## AddAll and RemoveAll -/

/-- C15: for every permutation `p` of `s`, `AddAll(s)` has the same outcome as
applying `Add` to the elements of `p` one after another; on a non-nil set both
return a set. -/
theorem addAll_eq_addEach_perm (A : MapValue T) (s p : List T) (hp : p.Perm s) :
    AddAll A s = AddEach A p ∧ (A ≠ .nil → ∃ A', AddAll A s = some A') := by
  cases A with
  | nil =>
    refine ⟨?_, fun h => absurd rfl h⟩
    cases s with
    | nil =>
      rw [List.perm_nil.1 hp]
      rfl
    | cons a tl =>
      cases p with
      | nil => exact absurd hp.symm (List.cons_ne_nil a tl ∘ List.perm_nil.1)
      | cons b tl' => rw [addAll_nil_cons, addEach_nil_cons]
  | made K =>
    refine ⟨?_, fun _ => ⟨_, addAll_made K s⟩⟩
    rw [addAll_made, addEach_made, List.toFinset_eq_of_perm p s hp]

/-- Witness of C15: adding `b, c, b` to `{a}` in bulk and one by one in the
order `c, b, b`. -/
theorem addAll_eq_addEach_perm_witness :
    ["c", "b", "b"].Perm ["b", "c", "b"] ∧
      AddAll (MapValue.made ["a"].toFinset) ["b", "c", "b"]
        = AddEach (MapValue.made ["a"].toFinset) ["c", "b", "b"] :=
  ⟨by decide, (addAll_eq_addEach_perm _ _ _ (by decide)).1⟩

/-- C16: after `RemoveAll(s)` the set contains `x` if and only if `A` contained
`x` before the call and `x` does not occur in `s`; when `A` contains no element
of `s`, the call leaves `A` as it was. -/
theorem contains_removeAll_iff (A : MapValue T) (s : List T) (x : T) :
    (Contains (RemoveAll A s).keys x = true ↔ (Contains A.keys x = true ∧ x ∉ s)) ∧
      ((∀ e ∈ s, Contains A.keys e = false) → RemoveAll A s = A) := by
  refine ⟨?_, ?_⟩
  · simp only [contains_iff]
    exact mem_removeAll_keys A s x
  · intro h
    unfold RemoveAll
    induction s with
    | nil => rfl
    | cons a tl ih =>
      have ha : a ∉ A.keys := by
        intro hmem
        have := h a (List.mem_cons_self a tl)
        rw [(contains_iff A.keys a).2 hmem] at this
        cases this
      have hstep := remove_of_not_mem A a ha
      unfold Remove at hstep
      rw [List.foldl_cons, hstep]
      exact ih (fun e he => h e (List.mem_cons_of_mem a he))

/-! ## Construction from the keys of a map -/

/-- C17: `NewFromMapKeys(m)` contains `x` if and only if `x` is a key of `m`, its
size is the number of keys of `m`, and the values have no influence: a map with
the same keys and any other values, of any type, gives the same set. -/
theorem contains_newFromMapKeys_iff {V : Type} (m : GoMap T V) (tr : Traversal m.keys)
    (x : T) :
    (Contains (NewFromMapKeys m tr) x = true ↔ ∃ v, (x, v) ∈ m.entries) ∧
      len (NewFromMapKeys m tr) = m.len ∧
      (∀ (W : Type) (mw : GoMap T W) (trw : Traversal mw.keys),
        mw.keys = m.keys → NewFromMapKeys mw trw = NewFromMapKeys m tr) := by
  refine ⟨?_, ?_, ?_⟩
  · rw [newFromMapKeys_eq, contains_iff]
    unfold GoMap.keys
    rw [List.mem_toFinset, List.mem_map]
    constructor
    · rintro ⟨⟨k, v⟩, hmem, rfl⟩
      exact ⟨v, hmem⟩
    · rintro ⟨v, hmem⟩
      exact ⟨(x, v), hmem, rfl⟩
  · rw [newFromMapKeys_eq]
    unfold len GoMap.keys GoMap.len
    rw [List.toFinset_card_of_nodup m.nodupKeys, List.length_map]
  · intro W mw trw hkeys
    rw [newFromMapKeys_eq, newFromMapKeys_eq, hkeys]

/-! ## Laws of the set algebra -/

/-- C18: `IsSubsetOf(Difference(Union(A, B), B), A)` is true, whatever the
traversal order of each of the four loops. -/
theorem isSubsetOf_difference_union (A B : Set T) (trA : Traversal A) (trB : Traversal B)
    (trU : Traversal (Union A B trA trB))
    (trD : Traversal (Difference (Union A B trA trB) B trU)) :
    IsSubsetOf (Difference (Union A B trA trB) B trU) A trD = true := by
  rw [isSubsetOf_eq_true_iff, difference_eq, union_eq]
  intro x hx
  rw [Finset.mem_sdiff, Finset.mem_union] at hx
  rcases hx with ⟨hA | hB, hnB⟩
  · exact hA
  · exact absurd hB hnB

/-- C19: `IsSubsetOf(A, A)` is true and `IsProperSubsetOf(A, A)` is false. -/
theorem isSubsetOf_self_not_proper (A : Set T) (trS trP : Traversal A) :
    IsSubsetOf A A trS = true ∧ IsProperSubsetOf A A trP = false := by
  refine ⟨(isSubsetOf_eq_true_iff A A trS).2 (Finset.Subset.refl A), ?_⟩
  unfold IsProperSubsetOf
  rw [decide_eq_false (lt_irrefl (len A)), Bool.false_and]

/-- C20: `Equals(Union(New(), A), A)` is true: the empty set is a left identity
of `Union`. -/
theorem equals_union_new_left (A : Set T) (trN : Traversal (New : Set T))
    (trA : Traversal A) (trU : Traversal (Union New A trN trA)) :
    Equals (Union New A trN trA) A trU = true := by
  rw [equals_eq_true_iff, union_eq]
  unfold New
  exact Finset.empty_union A

/-! ## Asymmetry of Difference, round trip through a slice, AddAll and Union -/

/-- C21: `Difference` is not symmetric.  For `A = {a, b, c}` and
`B = {a, b, d, e, f}`, whatever the traversal orders, `Difference(A, B)` is `{c}`,
`Difference(B, A)` is `{d, e, f}`, the two differ, and `Equals` tells them
apart. -/
theorem difference_not_symmetric
    (trA : Traversal (["a", "b", "c"].toFinset : Set String))
    (trB : Traversal (["a", "b", "d", "e", "f"].toFinset : Set String)) :
    Difference ["a", "b", "c"].toFinset ["a", "b", "d", "e", "f"].toFinset trA
        = ["c"].toFinset ∧
      Difference ["a", "b", "d", "e", "f"].toFinset ["a", "b", "c"].toFinset trB
        = ["d", "e", "f"].toFinset ∧
      Difference ["a", "b", "c"].toFinset ["a", "b", "d", "e", "f"].toFinset trA
        ≠ Difference ["a", "b", "d", "e", "f"].toFinset ["a", "b", "c"].toFinset trB ∧
      ∀ trD, Equals
          (Difference ["a", "b", "c"].toFinset ["a", "b", "d", "e", "f"].toFinset trA)
          (Difference ["a", "b", "d", "e", "f"].toFinset ["a", "b", "c"].toFinset trB)
          trD = false := by
  have hne : Difference ["a", "b", "c"].toFinset ["a", "b", "d", "e", "f"].toFinset trA
      ≠ Difference ["a", "b", "d", "e", "f"].toFinset ["a", "b", "c"].toFinset trB := by
    rw [difference_eq, difference_eq]
    decide
  refine ⟨?_, ?_, hne, ?_⟩
  · rw [difference_eq]
    decide
  · rw [difference_eq]
    decide
  · intro trD
    rw [← Bool.not_eq_true, equals_eq_true_iff]
    exact hne

/-- C22: `NewFromSlice(ToSlice(A))` is equal to `A`: `Equals` returns true, with
either of the two sets as receiver and whatever the traversal orders. -/
theorem equals_newFromSlice_toSlice (A : Set T) (tr trA : Traversal A)
    (trN : Traversal (NewFromSlice (ToSlice A tr))) :
    Equals (NewFromSlice (ToSlice A tr)) A trN = true ∧
      Equals A (NewFromSlice (ToSlice A tr)) trA = true := by
  have h : NewFromSlice (ToSlice A tr) = A := by
    rw [newFromSlice_eq, toSlice_eq, tr.toFinset_order]
  exact ⟨(equals_eq_true_iff _ A trN).2 h, (equals_eq_true_iff A _ trA).2 h.symm⟩

/-- C23, amended: unless `A` is the nil set and `s` is not empty, `AddAll(s)`
returns, and the set it leaves is equal to `Union(A, NewFromSlice(s))`: `Equals`
returns true with either of the two as receiver, whatever the traversal
orders. -/
theorem addAll_equals_union (A : MapValue T) (s : List T) (h : A ≠ .nil ∨ s = []) :
    ∃ A', AddAll A s = some A' ∧
      ∀ (trA : Traversal A.keys) (trS : Traversal (NewFromSlice s))
        (trE : Traversal A'.keys)
        (trU : Traversal (Union A.keys (NewFromSlice s) trA trS)),
        Equals A'.keys (Union A.keys (NewFromSlice s) trA trS) trE = true ∧
          Equals (Union A.keys (NewFromSlice s) trA trS) A'.keys trU = true := by
  cases A with
  | nil =>
    rcases h with h | h
    · exact absurd rfl h
    · subst h
      refine ⟨.nil, rfl, ?_⟩
      intro trA trS trE trU
      have hU : Union (MapValue.nil : MapValue T).keys (NewFromSlice []) trA trS
          = (MapValue.nil : MapValue T).keys := by
        rw [union_eq, newFromSlice_eq]
        simp [MapValue.keys]
      exact ⟨(equals_eq_true_iff _ _ trE).2 hU.symm, (equals_eq_true_iff _ _ trU).2 hU⟩
  | made K =>
    refine ⟨_, addAll_made K s, ?_⟩
    intro trA trS trE trU
    have hU : Union (MapValue.made K).keys (NewFromSlice s) trA trS
        = (MapValue.made (K ∪ s.toFinset)).keys := by
      rw [union_eq, newFromSlice_eq]
      rfl
    exact ⟨(equals_eq_true_iff _ _ trE).2 hU.symm, (equals_eq_true_iff _ _ trU).2 hU⟩

/-- Witness of C23, amended: adding `b, c, b` to the allocated set `{a, b}`. -/
theorem addAll_equals_union_witness :
    (MapValue.made ["a", "b"].toFinset ≠ MapValue.nil ∨ ["b", "c", "b"] = []) ∧
      ∃ A', AddAll (MapValue.made ["a", "b"].toFinset) ["b", "c", "b"] = some A' ∧
        ∀ (trA : Traversal (MapValue.made ["a", "b"].toFinset).keys)
          (trS : Traversal (NewFromSlice ["b", "c", "b"])) (trE : Traversal A'.keys)
          (trU : Traversal (Union (MapValue.made ["a", "b"].toFinset).keys
            (NewFromSlice ["b", "c", "b"]) trA trS)),
          Equals A'.keys (Union (MapValue.made ["a", "b"].toFinset).keys
              (NewFromSlice ["b", "c", "b"]) trA trS) trE = true ∧
            Equals (Union (MapValue.made ["a", "b"].toFinset).keys
              (NewFromSlice ["b", "c", "b"]) trA trS) A'.keys trU = true :=
  ⟨by decide, addAll_equals_union _ _ (by decide)⟩

/-- C23, as stated, fails on the nil set with a non-empty slice: `AddAll(["a"])`
on the zero value of `Set[string]` panics and leaves no set, while
`Union(A, NewFromSlice(["a"]))` returns a set that contains `"a"`. -/
theorem addAll_nil_not_union :
    (¬ ∃ A', AddAll (MapValue.nil : MapValue String) ["a"] = some A' ∧
        ∀ (trA : Traversal (MapValue.nil : MapValue String).keys)
          (trS : Traversal (NewFromSlice ["a"])) (trE : Traversal A'.keys),
          Equals A'.keys
            (Union (MapValue.nil : MapValue String).keys (NewFromSlice ["a"]) trA trS)
            trE = true) ∧
      ∀ (trA : Traversal (MapValue.nil : MapValue String).keys)
        (trS : Traversal (NewFromSlice ["a"])),
        Contains
          (Union (MapValue.nil : MapValue String).keys (NewFromSlice ["a"]) trA trS)
          "a" = true := by
  refine ⟨?_, ?_⟩
  · rintro ⟨A', h, -⟩
    cases h
  · intro trA trS
    rw [union_eq, contains_iff]
    decide

/-! ## Cases of `set_test.go`, evaluated on the embedding -/

/-- `TestSetIsSubset`, case "subset", in both traversal orders of the receiver. -/
theorem test_isSubsetOf_subset :
    IsSubsetOf ["a", "b"].toFinset ["a", "b", "c"].toFinset
        (Traversal.ofOrder ["a", "b"] (by decide) (by decide)) = true ∧
      IsSubsetOf ["b", "a"].toFinset ["a", "b", "c"].toFinset
        (Traversal.ofOrder ["b", "a"] (by decide) (by decide)) = true := by
  decide

/-- `TestSetIsSubset`, cases "different sizes" and "not a subset". -/
theorem test_isSubsetOf_false :
    IsSubsetOf ["a", "b", "c"].toFinset ["a", "b"].toFinset
        (Traversal.ofOrder ["a", "b", "c"] (by decide) (by decide)) = false ∧
      IsSubsetOf ["a", "b", "c"].toFinset ["a", "b", "d"].toFinset
        (Traversal.ofOrder ["a", "b", "c"] (by decide) (by decide)) = false := by
  decide

/-- `TestSetEquals`, cases "non-empty sets", "different sets", "different sizes". -/
theorem test_equals :
    Equals ["a", "b", "c"].toFinset ["c", "b", "a"].toFinset
        (Traversal.ofOrder ["a", "b", "c"] (by decide) (by decide)) = true ∧
      Equals ["a", "b", "c"].toFinset ["a", "b", "d"].toFinset
        (Traversal.ofOrder ["a", "b", "c"] (by decide) (by decide)) = false ∧
      Equals ["a", "b", "c"].toFinset ["a", "b"].toFinset
        (Traversal.ofOrder ["a", "b", "c"] (by decide) (by decide)) = false := by
  decide

/-- `TestSetIsProperSubset`, cases "empty sets", "non-empty sets equals", "subset". -/
theorem test_isProperSubsetOf :
    IsProperSubsetOf ([] : List String).toFinset ([] : List String).toFinset
        (Traversal.ofOrder [] (by decide) (by decide)) = false ∧
      IsProperSubsetOf ["a", "b", "c"].toFinset ["a", "b", "c"].toFinset
        (Traversal.ofOrder ["a", "b", "c"] (by decide) (by decide)) = false ∧
      IsProperSubsetOf ["a", "b"].toFinset ["a", "b", "c"].toFinset
        (Traversal.ofOrder ["a", "b"] (by decide) (by decide)) = true := by
  decide

/-- Union, intersection and difference of `{a, b, c}` and `{a, b, d, e, f}`, the
"partial overlap" operands of `TestSetDifference`. -/
theorem test_union_intersection_difference :
    Union ["a", "b", "c"].toFinset ["a", "b", "d", "e", "f"].toFinset
        (Traversal.ofOrder ["c", "a", "b"] (by decide) (by decide))
        (Traversal.ofOrder ["f", "a", "e", "b", "d"] (by decide) (by decide))
        = ["a", "b", "c", "d", "e", "f"].toFinset ∧
      Intersection ["a", "b", "c"].toFinset ["a", "b", "d", "e", "f"].toFinset
        (Traversal.ofOrder ["c", "a", "b"] (by decide) (by decide)) = ["a", "b"].toFinset ∧
      Difference ["a", "b", "c"].toFinset ["a", "b", "d", "e", "f"].toFinset
        (Traversal.ofOrder ["c", "a", "b"] (by decide) (by decide)) = ["c"].toFinset := by
  decide

/-- `NewFromSlice` collapses duplicates, and `ToSlice` follows the traversal. -/
theorem test_newFromSlice_toSlice :
    NewFromSlice ["a", "b", "a", "c", "b"] = ["a", "b", "c"].toFinset ∧
      len (NewFromSlice ["a", "b", "a", "c", "b"]) = 3 ∧
      Contains (NewFromSlice ["a", "b", "a"]) "b" = true ∧
      Contains (NewFromSlice ["a", "b", "a"]) "d" = false ∧
      ToSlice ["a", "b", "c"].toFinset (Traversal.ofOrder ["b", "c", "a"] (by decide) (by decide))
        = ["b", "c", "a"] := by
  decide

/-- `TestSetAdd`, cases "non-empty set" and "duplicate"; on the nil set `Add`
panics. -/
theorem test_add :
    (∃ K, Add (MapValue.made ["a", "b", "c"].toFinset) "d" = some (MapValue.made K) ∧
        K = ["a", "b", "c", "d"].toFinset) ∧
      (∃ K, Add (MapValue.made ["a", "b", "c"].toFinset) "a" = some (MapValue.made K) ∧
        K = ["a", "b", "c"].toFinset) ∧
      Add (MapValue.nil : MapValue String) "a" = none :=
  ⟨⟨_, rfl, by decide⟩, ⟨_, rfl, by decide⟩, rfl⟩

/-- `TestSetRemove`, cases "empty set", "non-empty set" and "duplicate"; on the
nil set `Remove` does nothing. -/
theorem test_remove :
    Remove (MapValue.made ([] : List String).toFinset) "a"
        = MapValue.made ([] : List String).toFinset ∧
      Remove (MapValue.made ["a", "b", "c"].toFinset) "d"
        = MapValue.made ["a", "b", "c"].toFinset ∧
      Remove (MapValue.made ["a", "b", "c"].toFinset) "a"
        = MapValue.made ["b", "c"].toFinset ∧
      Remove (MapValue.nil : MapValue String) "a" = MapValue.nil := by
  decide

/-- `TestSetAddAll`, case "overlapping": the call returns a set, with the
expected keys. -/
theorem test_addAll :
    ∃ K, AddAll (MapValue.made ["a", "b", "c"].toFinset) ["a", "b", "c", "d", "e", "f"]
        = some (MapValue.made K) ∧ K = ["a", "b", "c", "d", "e", "f"].toFinset :=
  ⟨_, rfl, by decide⟩

/-- `TestSetRemoveAll`, case "partial overlap". -/
theorem test_removeAll :
    RemoveAll (MapValue.made ["a", "b", "c"].toFinset) ["a", "b", "d", "e", "f"]
      = MapValue.made ["c"].toFinset := by
  decide

/-- `TestNewFromMapKeys`, case "non-empty map", with values of two kinds. -/
theorem test_newFromMapKeys :
    NewFromMapKeys (GoMap.mk [("a", 1), ("b", 2), ("c", 3)] (by decide))
        (Traversal.ofOrder ["c", "a", "b"] (by decide) (by decide))
        = ["a", "b", "c"].toFinset ∧
      NewFromMapKeys (GoMap.mk [("b", true), ("c", false), ("a", true)] (by decide))
        (Traversal.ofOrder ["a", "b", "c"] (by decide) (by decide))
        = ["a", "b", "c"].toFinset := by
  decide

/-- The scenario of the specification: `{a, b, c}`, then `Remove(a)`, then
`Add(d)`, is `NewFromSlice([b, c, d])`. -/
theorem test_remove_then_add :
    ∃ K, Add (Remove (MapValue.made (NewFromSlice ["a", "b", "c"])) "a") "d"
        = some (MapValue.made K) ∧ K = NewFromSlice ["b", "c", "d"] :=
  ⟨_, rfl, by decide⟩

end GoSet
